import Mathlib

/-!
Verification development for the conditional-exports resolver of the
`turbo-meta-utilities` repository (`src/package-json.ts`): the
`ExportTarget` class (recursive export-value resolution against ordered
condition lists) and the `GlobResolver` class (ordered pattern matching
with wildcard capture substitution).

The TypeScript union `string | null | ExportValue[] | Record<string, ExportValue>`
becomes the inductive `ExportValue`; the resolution result
`string | null | undefined` of `_resolveExportValue` becomes the inductive `Res`
(`leaf` for a string, `blocked` for `null`, `absent` for `undefined`).
JavaScript objects are modelled as insertion-ordered association lists with
distinct keys (as produced by `JSON.parse`); `hasOwnProperty`/indexing is
modelled by `List.lookup` (first binding).
-/

set_option maxHeartbeats 1000000
set_option maxRecDepth 4000

/-- The recursive export-value tree from `package-json.ts`:
a string leaf, an explicit `null` (blocked), an array, or a condition object. -/
inductive ExportValue where
  | leaf (path : String)
  | blocked
  | list (items : List ExportValue)
  | conditional (entries : List (String × ExportValue))
deriving Repr

/-- Result of `_resolveExportValue`: a string (`leaf`), `null` (`blocked`),
or `undefined` (`absent`). -/
inductive Res where
  | leaf (path : String)
  | blocked
  | absent
deriving Repr, DecidableEq

/-- The loop of `_resolveExportValue` over the caller's condition list for a
condition object, operating on the entries with their values already resolved
(the resolution of each value is a pure function of the value and the condition
list, so resolving at lookup time and resolving up front coincide; the bridge
is proved in `resolveExportValue_conditional`).  A condition name with no
matching key, or whose entry resolved to `absent` (`undefined`), continues the
search; any other result (`leaf` or `blocked`) is returned immediately. -/
def condLoop : List (String × Res) → List String → Res
  | _, [] => .absent
  | rentries, c :: cs =>
    match List.lookup c rentries with
    | none => condLoop rentries cs
    | some .absent => condLoop rentries cs
    | some r => r

mutual
/-- Embedding of `ExportTarget._resolveExportValue`. -/
def resolveExportValue : ExportValue → List String → Res
  | .blocked, _ => .blocked
  | .leaf s, _ => .leaf s
  | .list items, conds => resolveList items conds false
  | .conditional entries, conds =>
    condLoop (entries.attach.map fun p => (p.1.1, resolveExportValue p.1.2 conds)) conds
termination_by v _ => sizeOf v
decreasing_by
  all_goals simp_wf
  all_goals first
    | omega
    | (have h1 := List.sizeOf_lt_of_mem p.2
       have h2 : sizeOf p.1.2 < sizeOf p.1 := by
         obtain ⟨⟨k, v⟩, hp⟩ := p
         simp only [Prod.mk.sizeOf_spec]
         omega
       omega)

/-- Embedding of the `for (const entry of value)` loop in
`ExportTarget._resolveExportValue` for arrays, with the `blocked` flag. -/
def resolveList : List ExportValue → List String → Bool → Res
  | [], _, sawBlocked => if sawBlocked then .blocked else .absent
  | entry :: rest, conds, sawBlocked =>
    match resolveExportValue entry conds with
    | .leaf s => .leaf s
    | .blocked => resolveList rest conds true
    | .absent => resolveList rest conds sawBlocked
termination_by items _ _ => sizeOf items
decreasing_by
  all_goals simp_wf
  all_goals omega
end

/-- The entries of a condition object with each value resolved against the
given condition list. -/
def resolvedEntries (entries : List (String × ExportValue)) (conds : List String) :
    List (String × Res) :=
  entries.map fun q => (q.1, resolveExportValue q.2 conds)

/-- Embedding of `ExportTarget._normalizeConditions`: the loop with the `seen`
set, dropping every repeated condition name. -/
def normalizeAux : List String → List String → List String
  | [], _ => []
  | c :: rest, seen =>
    if c ∈ seen then normalizeAux rest seen else c :: normalizeAux rest (c :: seen)

/-- Embedding of `ExportTarget._normalizeConditions`: duplicates removed
(keeping first occurrences), then `"default"` appended when the input did not
contain it (after the loop, `seen` holds exactly the elements of the input). -/
def normalizeConditions (conditions : List String) : List String :=
  let normalized := normalizeAux conditions []
  if "default" ∈ conditions then normalized else normalized ++ ["default"]

/-- The module-level constant `DEFAULT_CONDITION_PRIORITY`. -/
def DEFAULT_CONDITION_PRIORITY : List String :=
  ["node", "browser", "import", "require", "types"]

/-- Embedding of `ExportTargetOptions`: the optional `conditionPriority`
override and the four optional per-field overrides of `conditionSets`
(the nested record is flattened into four fields). -/
structure ExportTargetOptions where
  conditionPriority : Option (List String) := none
  conditionSetDefault : Option (List String) := none
  conditionSetImport : Option (List String) := none
  conditionSetRequire : Option (List String) := none
  conditionSetTypes : Option (List String) := none

/-- Embedding of the `ResolveResult` interface (`target?: string` and
`blocked: boolean`). -/
structure ResolveResult where
  target : Option String
  blocked : Bool
deriving Repr, DecidableEq

/-- Embedding of `ExportTarget._resolveFor` (a `null` overall result is
reported as blocked with no target, otherwise the string-or-undefined result
is the optional target). -/
def resolveFor (value : ExportValue) (conds : List String) : ResolveResult :=
  match resolveExportValue value conds with
  | .blocked => { target := none, blocked := true }
  | .leaf s => { target := some s, blocked := false }
  | .absent => { target := none, blocked := false }

/-- JavaScript falsiness of an optional string (`!x` in the constructor):
true exactly for `undefined` and the empty string. -/
def jsFalsyStr : Option String → Bool
  | none => true
  | some s => s = ""

/-- The successfully constructed `ExportTarget`: the four public readonly
fields, the stored `_target` tree, and the stored `_conditionPriority`. -/
structure ExportTarget where
  default : Option String
  «import» : Option String
  require : Option String
  types : Option String
  target : ExportValue
  conditionPriority : List String

/-- The `?? `-chain computing `this.default` from the four standard results
(skips only `undefined`, so an empty-string target is kept). -/
def jsCoalesce : Option String → Option String → Option String
  | some s, _ => some s
  | none, o => o

/-- Embedding of the `ExportTarget` constructor.  Returns `.error ()` exactly
when the constructor throws `Invalid export target`. -/
def mkExportTarget (target : ExportValue) (opts : ExportTargetOptions) :
    Except Unit ExportTarget :=
  let conditionPriority :=
    normalizeConditions (opts.conditionPriority.getD DEFAULT_CONDITION_PRIORITY)
  let setDefault :=
    normalizeConditions (opts.conditionSetDefault.getD ("default" :: conditionPriority))
  let setImport :=
    normalizeConditions (opts.conditionSetImport.getD ("import" :: conditionPriority))
  let setRequire :=
    normalizeConditions (opts.conditionSetRequire.getD ("require" :: conditionPriority))
  let setTypes :=
    normalizeConditions (opts.conditionSetTypes.getD ("types" :: conditionPriority))
  let defaultResult := resolveFor target setDefault
  let importResult := resolveFor target setImport
  let requireResult := resolveFor target setRequire
  let typesResult := resolveFor target setTypes
  let default0 :=
    jsCoalesce defaultResult.target
      (jsCoalesce importResult.target (jsCoalesce requireResult.target typesResult.target))
  if jsFalsyStr default0 && jsFalsyStr importResult.target &&
      jsFalsyStr requireResult.target && jsFalsyStr typesResult.target then
    let fallback := resolveFor target conditionPriority
    if jsFalsyStr fallback.target && !fallback.blocked then
      .error ()
    else
      .ok { default := fallback.target, «import» := importResult.target,
            require := requireResult.target, types := typesResult.target,
            target := target, conditionPriority := conditionPriority }
  else
    .ok { default := default0, «import» := importResult.target,
          require := requireResult.target, types := typesResult.target,
          target := target, conditionPriority := conditionPriority }

/-- Embedding of the public `ExportTarget.resolve(conditions)` method. -/
def ExportTarget.resolve (t : ExportTarget) (conditions : List String) : Option String :=
  let r := resolveFor t.target (normalizeConditions conditions)
  if r.blocked then none else r.target

/-- Embedding of the first pass of `GlobResolver._replaceWildcards`: the
`replace(/\*\*/g, ...)` call.  Scans left to right; each non-overlapping
`**` occurrence is replaced by the next unused capture when one remains
(`captureIndex < captures.length`), else by the literal `**`; the final
capture index is returned for the second pass (the counter is shared). -/
def replaceDoubleStars : List Char → List String → Nat → List Char × Nat
  | [], _, i => ([], i)
  | [c], _, i => ([c], i)
  | c :: c2 :: rest, caps, i =>
    if c = '*' ∧ c2 = '*' then
      match caps.get? i with
      | some cap =>
        let p := replaceDoubleStars rest caps (i + 1)
        (cap.data ++ p.1, p.2)
      | none =>
        let p := replaceDoubleStars rest caps i
        ('*' :: '*' :: p.1, p.2)
    else
      let p := replaceDoubleStars (c2 :: rest) caps i
      (c :: p.1, p.2)

/-- Embedding of the second pass of `GlobResolver._replaceWildcards`: the
`replace(/\*/g, ...)` call, continuing with the capture index left by the
first pass. -/
def replaceSingleStars : List Char → List String → Nat → List Char × Nat
  | [], _, i => ([], i)
  | c :: rest, caps, i =>
    if c = '*' then
      match caps.get? i with
      | some cap =>
        let p := replaceSingleStars rest caps (i + 1)
        (cap.data ++ p.1, p.2)
      | none =>
        let p := replaceSingleStars rest caps i
        ('*' :: p.1, p.2)
    else
      let p := replaceSingleStars rest caps i
      (c :: p.1, p.2)

/-- Embedding of `GlobResolver._replaceWildcards`: first all `**` occurrences
are replaced (consuming captures), then all remaining `*` occurrences are
replaced in the resulting string, with one shared capture counter starting
at zero. -/
def replaceWildcards (targetPath : String) (captures : List String) : String :=
  let d := replaceDoubleStars targetPath.data captures 0
  let s := replaceSingleStars d.1 captures d.2
  String.mk s.1

/-- Embedding of `GlobResolver._substituteExportValue`: rewrite every string
leaf of the tree with `replaceWildcards` (the capture counter restarts at the
first capture for each leaf), preserving `null`, array and object structure. -/
def substituteExportValue (target : ExportValue) (captures : List String) : ExportValue :=
  match target with
  | .leaf s => .leaf (replaceWildcards s captures)
  | .blocked => .blocked
  | .list items =>
    .list (items.attach.map fun e => substituteExportValue e.1 captures)
  | .conditional entries =>
    .conditional (entries.attach.map fun p => (p.1.1, substituteExportValue p.1.2 captures))
termination_by sizeOf target
decreasing_by
  · have h1 := List.sizeOf_lt_of_mem e.2
    simp_wf; omega
  · have h1 := List.sizeOf_lt_of_mem p.2
    have h2 : sizeOf p.1.2 < sizeOf p.1 := by
      obtain ⟨⟨k, v⟩, hp⟩ := p
      simp only [Prod.mk.sizeOf_spec]
      omega
    simp_wf; omega

/-- Model of the external `minimatch(path, pattern)` library call made by
`GlobResolver.resolveImport` (the library is a dependency of the repository,
not part of its sources).  Covers the documented glob semantics for literal
characters (a literal matches itself), `?` (one character other than `/`),
`*` (a run of characters other than `/`) and `**` (an arbitrary run); pattern
and path are matched in full.  Simplifications of the model: the library's
character classes, brace expansion, leading negation and extglob forms are
treated as literal characters, `**` is given cross-separator force wherever
it occurs rather than only as a whole path segment, and the dotfile rule is
omitted.  Theorems therefore either keep this matcher in hypotheses or
instantiate it on patterns built only from literals, `?` and `*`, where the
model and the library agree. -/
def minimatchChars : List Char → List Char → Bool
  | [], s => s.isEmpty
  | c :: ps, s =>
    if c = '*' then
      if ps.head? = some '*' then
        minimatchChars ps.tail s ||
          (match s with
           | [] => false
           | _ :: s2 => minimatchChars (c :: ps) s2)
      else
        minimatchChars ps s ||
          (match s with
           | [] => false
           | d :: s2 => if d = '/' then false else minimatchChars (c :: ps) s2)
    else if c = '?' then
      match s with
      | [] => false
      | d :: s2 => if d = '/' then false else minimatchChars ps s2
    else
      match s with
      | [] => false
      | d :: s2 => if d = c then minimatchChars ps s2 else false
termination_by p s => (p.length, s.length)
decreasing_by
  all_goals simp_wf
  all_goals first
    | (apply Prod.Lex.left
       simp [List.length_tail]
       omega)
    | (apply Prod.Lex.right
       omega)
    | (apply Prod.Lex.left
       omega)

/-- Model of `minimatch(importPath, pattern)` on strings. -/
def minimatchModel (importPath pattern : String) : Bool :=
  minimatchChars pattern.data importPath.data

/-- The glob metacharacters of `minimatch`: the wildcards and the characters
introducing character classes, brace expansion, negation, extglob forms and
escapes (code points 123, 125 and 92 are the two braces and the backslash).
A pattern free of all of them is matched by the library as a literal string,
and on such patterns the model `minimatchChars` agrees with the library. -/
def globSpecialChars : List Char :=
  ['*', '?', '[', ']', Char.ofNat 123, Char.ofNat 125, '!',
   '(', ')', '|', '+', '@', Char.ofNat 92]

mutual
/-- Embedding of the anchored regular expression built by
`GlobResolver._globToRegex` and applied by `_extractCaptures`: every character
other than `*` is matched literally (the escaping step makes regex
metacharacters literal), `**` becomes the greedy capturing group `(.*)`, and a
remaining `*` becomes the greedy capturing group `([^/]*)`.  Returns the list
of captured substrings of a full match (greedy groups with backtracking:
longest prefix first), or `none` when the path does not match. -/
def regexCapture : List Char → List Char → Option (List (List Char))
  | [], s => if s = [] then some [] else none
  | c :: ps, s =>
    if c = '*' then
      if ps.head? = some '*' then tryCapture ps.tail s s.length
      else tryCapture ps s (s.takeWhile fun d => d ≠ '/').length
    else
      match s with
      | [] => none
      | d :: s2 => if d = c then regexCapture ps s2 else none
termination_by p _ => (p.length, 0)
decreasing_by
  all_goals simp_wf
  all_goals first
    | (apply Prod.Lex.left
       simp [List.length_tail]
       omega)
    | (apply Prod.Lex.right
       omega)
    | (apply Prod.Lex.left
       omega)

/-- Greedy group matching for `regexCapture`: try capturing the first `k`
characters of `s`, decreasing `k` on failure (backtracking). -/
def tryCapture (ps : List Char) (s : List Char) : Nat → Option (List (List Char))
  | 0 =>
    match regexCapture ps (s.drop 0) with
    | some caps => some (s.take 0 :: caps)
    | none => none
  | k + 1 =>
    match regexCapture ps (s.drop (k + 1)) with
    | some caps => some (s.take (k + 1) :: caps)
    | none => tryCapture ps s k
termination_by k => (ps.length, k + 1)
end

/-- Embedding of `GlobResolver._extractCaptures`: captures of the anchored
glob regex, or the empty list when the regex does not match. -/
def extractCaptures (pattern importPath : String) : List String :=
  match regexCapture pattern.data importPath.data with
  | some caps => caps.map fun l => String.mk l
  | none => []

/-- Embedding of `GlobResolver.resolveImport` over the ordered pattern table.
`none` is the `undefined` no-match result; a matched pattern constructs an
`ExportTarget` (whose constructor may throw, hence the `Except`). -/
def resolveImport (patterns : List (String × ExportValue)) (importPath : String)
    (opts : ExportTargetOptions) : Option (Except Unit ExportTarget) :=
  match patterns with
  | [] => none
  | (pattern, target) :: rest =>
    if minimatchModel importPath pattern then
      if !pattern.data.contains '*' then
        some (mkExportTarget target opts)
      else
        some (mkExportTarget (substituteExportValue target (extractCaptures pattern importPath)) opts)
    else
      resolveImport rest importPath opts

/-- Specification-side formulation (from the spec's words, for comparison with
the embedded `normalizeAux`): remove duplicate condition names, keeping the
first occurrence of each. -/
def specDedupKeepFirst : List String → List String
  | [] => []
  | c :: rest => c :: specDedupKeepFirst (rest.filter fun x => x ≠ c)
termination_by l => l.length
decreasing_by
  simp_wf
  have := List.length_filter_le (fun x => !decide (x = c)) rest
  omega

/-- Specification-side formulation of condition-list normalization (from the
spec's words): duplicates removed keeping first occurrences, `"default"`
appended if not already present. -/
def specNormalize (conditions : List String) : List String :=
  let d := specDedupKeepFirst conditions
  if "default" ∈ d then d else d ++ ["default"]

/-- The result the conditional loop sees for one condition name: `absent` when
the object has no such key, else the recursive resolution of the entry. -/
def condEntryRes (entries : List (String × ExportValue)) (c : String)
    (conds : List String) : Res :=
  match List.lookup c entries with
  | none => .absent
  | some v => resolveExportValue v conds

/-- The condition list the constructor uses for its last-resort fallback
resolution: the normalized global condition priority. -/
def fallbackConds (opts : ExportTargetOptions) : List String :=
  normalizeConditions (opts.conditionPriority.getD DEFAULT_CONDITION_PRIORITY)

/-- The constructor's test that all four precomputed standard fields are
JavaScript-falsy (absent or the empty string), computed exactly as the
constructor computes them. -/
def standardFieldsFalsy (v : ExportValue) (opts : ExportTargetOptions) : Bool :=
  let conditionPriority :=
    normalizeConditions (opts.conditionPriority.getD DEFAULT_CONDITION_PRIORITY)
  let defaultResult :=
    resolveFor v (normalizeConditions (opts.conditionSetDefault.getD ("default" :: conditionPriority)))
  let importResult :=
    resolveFor v (normalizeConditions (opts.conditionSetImport.getD ("import" :: conditionPriority)))
  let requireResult :=
    resolveFor v (normalizeConditions (opts.conditionSetRequire.getD ("require" :: conditionPriority)))
  let typesResult :=
    resolveFor v (normalizeConditions (opts.conditionSetTypes.getD ("types" :: conditionPriority)))
  jsFalsyStr (jsCoalesce defaultResult.target
      (jsCoalesce importResult.target (jsCoalesce requireResult.target typesResult.target))) &&
    jsFalsyStr importResult.target && jsFalsyStr requireResult.target &&
    jsFalsyStr typesResult.target

theorem resolveExportValue_leaf (s : String) (conds : List String) :
    resolveExportValue (.leaf s) conds = .leaf s := by
  simp [resolveExportValue]

theorem resolveExportValue_blocked (conds : List String) :
    resolveExportValue .blocked conds = .blocked := by
  simp [resolveExportValue]

theorem resolveExportValue_list (items : List ExportValue) (conds : List String) :
    resolveExportValue (.list items) conds = resolveList items conds false := by
  simp [resolveExportValue]

theorem resolveExportValue_conditional (entries : List (String × ExportValue))
    (conds : List String) :
    resolveExportValue (.conditional entries) conds =
      condLoop (resolvedEntries entries conds) conds := by
  rw [resolveExportValue]
  congr 1
  exact List.attach_map_val entries fun q => (q.1, resolveExportValue q.2 conds)

theorem lookup_resolvedEntries (c : String) (entries : List (String × ExportValue))
    (conds : List String) :
    List.lookup c (resolvedEntries entries conds) =
      (List.lookup c entries).map fun v => resolveExportValue v conds := by
  induction entries with
  | nil => simp [resolvedEntries, List.lookup]
  | cons q rest ih =>
    obtain ⟨k, v⟩ := q
    by_cases h : c == k
    · simp [resolvedEntries, List.lookup, h]
    · simp only [resolvedEntries, List.map_cons, List.lookup, h] at ih ⊢
      exact ih


theorem condLoop_nil_entries (cs : List String) : condLoop [] cs = .absent := by
  induction cs with
  | nil => simp [condLoop]
  | cons c cs ih => simp [condLoop, List.lookup, ih]

theorem condLoop_allMiss (entries : List (String × ExportValue)) (conds cs : List String)
    (h : ∀ c ∈ cs, List.lookup c entries = none) :
    condLoop (resolvedEntries entries conds) cs = .absent := by
  induction cs with
  | nil => simp [condLoop]
  | cons c cs ih =>
    have hc := h c (by simp)
    simp only [condLoop, lookup_resolvedEntries, hc, Option.map_none]
    exact ih fun c' hc' => h c' (by simp [hc'])

theorem condLoop_found (entries : List (String × ExportValue)) (conds : List String)
    (cs₁ : List String) (c : String) (cs₂ : List String) (v : ExportValue)
    (h1 : ∀ c' ∈ cs₁, condEntryRes entries c' conds = .absent)
    (h2 : List.lookup c entries = some v)
    (h3 : resolveExportValue v conds ≠ .absent) :
    condLoop (resolvedEntries entries conds) (cs₁ ++ c :: cs₂) =
      resolveExportValue v conds := by
  induction cs₁ with
  | nil =>
    simp only [List.nil_append, condLoop, lookup_resolvedEntries, h2, Option.map_some]
    cases hr : resolveExportValue v conds with
    | absent => exact absurd hr h3
    | leaf s => simp [hr]
    | blocked => simp [hr]
  | cons c' cs₁ ih =>
    have h1' := h1 c' (by simp)
    have hrec : ∀ c'' ∈ cs₁, condEntryRes entries c'' conds = .absent :=
      fun c'' hc'' => h1 c'' (by simp [hc''])
    simp only [List.cons_append, condLoop, lookup_resolvedEntries]
    cases hl : List.lookup c' entries with
    | none => simpa [hl] using ih hrec
    | some w =>
      have : resolveExportValue w conds = .absent := by
        simpa [condEntryRes, hl] using h1'
      simpa [hl, this] using ih hrec

/-- Claim C1: a `Conditional` node is searched in the caller's condition-list
order with the same full list passed to every recursion; an entry resolving to
`absent` lets the search continue, while the first condition name whose entry
resolves to anything else (a leaf, or `blocked` — which therefore propagates
immediately rather than falling through) decides the node's result; and when
no condition name in the list has a matching key the node resolves to
`absent`. -/
theorem claimC1 (entries : List (String × ExportValue)) (cs₁ : List String)
    (c : String) (cs₂ : List String) (v : ExportValue)
    (h1 : ∀ c' ∈ cs₁, condEntryRes entries c' (cs₁ ++ c :: cs₂) = .absent)
    (h2 : List.lookup c entries = some v)
    (h3 : resolveExportValue v (cs₁ ++ c :: cs₂) ≠ .absent) :
    resolveExportValue (.conditional entries) (cs₁ ++ c :: cs₂) =
      resolveExportValue v (cs₁ ++ c :: cs₂) ∧
    (∀ (entries' : List (String × ExportValue)) (conds : List String),
      (∀ c' ∈ conds, List.lookup c' entries' = none) →
      resolveExportValue (.conditional entries') conds = .absent) := by
  constructor
  · rw [resolveExportValue_conditional]
    exact condLoop_found entries (cs₁ ++ c :: cs₂) cs₁ c cs₂ v h1 h2 h3
  · intro entries' conds h
    rw [resolveExportValue_conditional]
    exact condLoop_allMiss entries' conds conds h

/-- Witness for C1: with the object `{ a: "x" }` and the caller list
`["b", "a"]`, the condition `b` has no key and is skipped, `a` matches, and
the node resolves to the entry under `a`; moreover the entry under `a`
resolves to `Blocked` when nulled, making the node `Blocked` immediately. -/
theorem claimC1_witness :
    resolveExportValue (.conditional [("a", ExportValue.leaf "x")]) (["b"] ++ "a" :: []) =
      resolveExportValue (ExportValue.leaf "x") (["b"] ++ "a" :: []) ∧
    resolveExportValue (.conditional [("a", ExportValue.blocked), ("b", ExportValue.leaf "y")])
        (["a"] ++ "b" :: []) =
      resolveExportValue ExportValue.blocked (["a"] ++ "b" :: []) := by
  constructor
  · exact (claimC1 [("a", ExportValue.leaf "x")] ["b"] "a" [] (ExportValue.leaf "x")
      (by intro c' hc'; simp at hc'; subst hc'; simp [condEntryRes, List.lookup])
      (by simp [List.lookup])
      (by simp [resolveExportValue_leaf])).1
  · exact (claimC1 [("a", ExportValue.blocked), ("b", ExportValue.leaf "y")] [] "a" ["b"]
      ExportValue.blocked
      (by intro c' hc'; simp at hc')
      (by simp [List.lookup])
      (by simp [resolveExportValue_blocked])).1

theorem resolveList_append_leaf (xs : List ExportValue) (e : ExportValue)
    (ys : List ExportValue) (conds : List String) (s : String) (saw : Bool)
    (hxs : ∀ x ∈ xs, ∀ s', resolveExportValue x conds ≠ .leaf s')
    (he : resolveExportValue e conds = .leaf s) :
    resolveList (xs ++ e :: ys) conds saw = .leaf s := by
  induction xs generalizing saw with
  | nil => simp [resolveList, he]
  | cons x xs ih =>
    have hx := hxs x (by simp)
    have hrec : ∀ x' ∈ xs, ∀ s', resolveExportValue x' conds ≠ .leaf s' :=
      fun x' hx' => hxs x' (by simp [hx'])
    simp only [List.cons_append, resolveList]
    cases hr : resolveExportValue x conds with
    | leaf s' => exact absurd hr (hx s')
    | blocked => exact ih true hrec
    | absent => exact ih saw hrec

theorem resolveList_noLeaf (items : List ExportValue) (conds : List String) (saw : Bool)
    (h : ∀ x ∈ items, ∀ s', resolveExportValue x conds ≠ .leaf s') :
    resolveList items conds saw =
      if saw || items.any (fun x => resolveExportValue x conds == Res.blocked)
      then .blocked else .absent := by
  induction items generalizing saw with
  | nil => simp [resolveList]
  | cons x xs ih =>
    have hx := h x (by simp)
    have hrec : ∀ x' ∈ xs, ∀ s', resolveExportValue x' conds ≠ .leaf s' :=
      fun x' hx' => h x' (by simp [hx'])
    simp only [resolveList]
    cases hr : resolveExportValue x conds with
    | leaf s' => exact absurd hr (hx s')
    | blocked => simp [ih true hrec, hr]
    | absent => simp [ih saw hrec, hr]

/-- Claim C2: a `List` node returns the first element resolving to a leaf; if
no element resolves to a leaf it is `blocked` when some element resolved to
`blocked` (even if later elements were merely absent) and `absent` when every
element resolved to `absent`; in particular `[null, "a"]` resolves to
`Leaf "a"`, `[null]` to `Blocked`, and `[null, {}]` to `Blocked`. -/
theorem claimC2 (xs : List ExportValue) (e : ExportValue) (ys : List ExportValue)
    (conds : List String) (s : String)
    (hxs : ∀ x ∈ xs, ∀ s', resolveExportValue x conds ≠ .leaf s')
    (he : resolveExportValue e conds = .leaf s) :
    resolveExportValue (.list (xs ++ e :: ys)) conds = .leaf s ∧
    (∀ (items : List ExportValue) (conds' : List String),
      (∀ x ∈ items, ∀ s', resolveExportValue x conds' ≠ .leaf s') →
      ((∃ x ∈ items, resolveExportValue x conds' = .blocked) →
        resolveExportValue (.list items) conds' = .blocked) ∧
      ((∀ x ∈ items, resolveExportValue x conds' = .absent) →
        resolveExportValue (.list items) conds' = .absent)) ∧
    (∀ conds', resolveExportValue (.list [.blocked, .leaf "a"]) conds' = .leaf "a") ∧
    (∀ conds', resolveExportValue (.list [.blocked]) conds' = .blocked) ∧
    (∀ conds', resolveExportValue (.list [.blocked, .conditional []]) conds' = .blocked) := by
  refine ⟨?_, ?_, ?_, ?_, ?_⟩
  · rw [resolveExportValue_list]
    exact resolveList_append_leaf xs e ys conds s false hxs he
  · intro items conds' h
    constructor
    · rintro ⟨x, hx, hb⟩
      rw [resolveExportValue_list, resolveList_noLeaf items conds' false h]
      have : items.any (fun x => resolveExportValue x conds' == Res.blocked) = true :=
        List.any_eq_true.mpr ⟨x, hx, by simp [hb]⟩
      simp [this]
    · intro hall
      rw [resolveExportValue_list,
        resolveList_noLeaf items conds' false fun x hx s' => by simp [hall x hx]]
      have : items.any (fun x => resolveExportValue x conds' == Res.blocked) = false := by
        simp only [List.any_eq_false]
        intro x hx
        simp [hall x hx]
      simp [this]
  · intro conds'
    rw [resolveExportValue_list]
    simp [resolveList, resolveExportValue_blocked, resolveExportValue_leaf]
  · intro conds'
    rw [resolveExportValue_list]
    simp [resolveList, resolveExportValue_blocked]
  · intro conds'
    rw [resolveExportValue_list]
    simp [resolveList, resolveExportValue_blocked, resolveExportValue_conditional,
      resolvedEntries, condLoop_nil_entries]

/-- Witness for C2: in `[null, "a"]` the leading blocked entry is passed over
and the first leaf `"a"` wins. -/
theorem claimC2_witness :
    resolveExportValue (.list ([ExportValue.blocked] ++ ExportValue.leaf "a" :: []))
      ["x"] = .leaf "a" := by
  exact (claimC2 [ExportValue.blocked] (ExportValue.leaf "a") [] ["x"] "a"
    (by intro x hx s'; simp at hx; subst hx; simp [resolveExportValue_blocked])
    (by simp [resolveExportValue_leaf])).1

theorem resolveList_skip_absent (n : ExportValue) (xs ys : List ExportValue)
    (conds : List String) (saw : Bool)
    (hn : resolveExportValue n conds = .absent) :
    resolveList (xs ++ n :: ys) conds saw = resolveList (xs ++ ys) conds saw := by
  induction xs generalizing saw with
  | nil => simp [resolveList, hn]
  | cons x xs ih =>
    simp only [List.cons_append, resolveList]
    cases hr : resolveExportValue x conds with
    | leaf s => rfl
    | blocked => exact ih true
    | absent => exact ih saw


theorem mkExportTarget_error_fallback (v : ExportValue) (opts : ExportTargetOptions)
    (h : mkExportTarget v opts = .error ()) :
    resolveExportValue v (fallbackConds opts) = .absent ∨
      resolveExportValue v (fallbackConds opts) = .leaf "" := by
  simp only [mkExportTarget] at h
  split at h
  · split at h
    · rename_i hf
      simp only [fallbackConds]
      rw [Bool.and_eq_true] at hf
      obtain ⟨hft, hfb⟩ := hf
      cases hr : resolveExportValue v (normalizeConditions (opts.conditionPriority.getD DEFAULT_CONDITION_PRIORITY)) with
      | absent => exact Or.inl rfl
      | blocked => simp [resolveFor, hr] at hfb
      | leaf s =>
        right
        simp only [resolveFor, hr, jsFalsyStr, decide_eq_true_eq] at hft
        rw [hft]
    · exact absurd h (by simp)
  · exact absurd h (by simp)

theorem condLoop_insert_absent (e₁ e₂ : List (String × ExportValue)) (k : String)
    (v0 : ExportValue) (conds : List String)
    (hv : resolveExportValue v0 conds = .absent)
    (hk : List.lookup k e₂ = none) :
    ∀ cs, condLoop (resolvedEntries (e₁ ++ (k, v0) :: e₂) conds) cs =
      condLoop (resolvedEntries (e₁ ++ e₂) conds) cs := by
  intro cs
  induction cs with
  | nil => simp [condLoop]
  | cons c cs ih =>
    simp only [condLoop, lookup_resolvedEntries, List.lookup_append]
    by_cases hck : c = k
    · subst hck
      have h2 : List.lookup c ((c, v0) :: e₂) = some v0 := by simp [List.lookup]
      rw [h2, hk]
      cases hl : List.lookup c e₁ with
      | some w =>
        cases hw : resolveExportValue w conds <;> simp [Option.or, hw, ih]
      | none =>
        simp [Option.or, hv, ih]
    · have hbeq : (c == k) = false := by simp [hck]
      have h2 : List.lookup c ((k, v0) :: e₂) = List.lookup c e₂ := by
        simp [List.lookup, hbeq]
      rw [h2]
      cases hl : (List.lookup c e₁).or (List.lookup c e₂) with
      | none => simp [ih]
      | some w =>
        cases hw : resolveExportValue w conds <;> simp [hw, ih]

theorem conditional_skip_absent (e₁ e₂ : List (String × ExportValue)) (k : String)
    (v0 : ExportValue) (conds : List String)
    (hv : resolveExportValue v0 conds = .absent)
    (hk : List.lookup k e₂ = none) :
    resolveExportValue (.conditional (e₁ ++ (k, v0) :: e₂)) conds =
      resolveExportValue (.conditional (e₁ ++ e₂)) conds := by
  rw [resolveExportValue_conditional, resolveExportValue_conditional]
  exact condLoop_insert_absent e₁ e₂ k v0 conds hv hk conds

/-- Claim C9 (amended): an empty condition object and an empty array each
resolve to `absent` for every condition list; nested in a larger array they
are skipped like any other absent entry, and nested in a larger condition
object an entry binding a condition name to an empty structure makes that
condition fall through to the next condition name exactly as a missing key
would (the name having no later duplicate binding, as JSON object keys are
unique); and a construction-time `InvalidExportTarget` error implies the
root's last-resort resolution was `absent` — or a leaf holding the empty
string, which the constructor's JavaScript truthiness checks conflate with
absence. -/
theorem claimC9 :
    (∀ conds, resolveExportValue (.conditional []) conds = .absent) ∧
    (∀ conds, resolveExportValue (.list []) conds = .absent) ∧
    (∀ (xs ys : List ExportValue) (conds : List String),
      resolveExportValue (.list (xs ++ ExportValue.conditional [] :: ys)) conds =
        resolveExportValue (.list (xs ++ ys)) conds) ∧
    (∀ (xs ys : List ExportValue) (conds : List String),
      resolveExportValue (.list (xs ++ ExportValue.list [] :: ys)) conds =
        resolveExportValue (.list (xs ++ ys)) conds) ∧
    (∀ (e₁ e₂ : List (String × ExportValue)) (k : String) (conds : List String),
      List.lookup k e₂ = none →
      resolveExportValue (.conditional (e₁ ++ (k, ExportValue.conditional []) :: e₂)) conds =
        resolveExportValue (.conditional (e₁ ++ e₂)) conds) ∧
    (∀ (e₁ e₂ : List (String × ExportValue)) (k : String) (conds : List String),
      List.lookup k e₂ = none →
      resolveExportValue (.conditional (e₁ ++ (k, ExportValue.list []) :: e₂)) conds =
        resolveExportValue (.conditional (e₁ ++ e₂)) conds) ∧
    (∀ (v : ExportValue) (opts : ExportTargetOptions),
      mkExportTarget v opts = .error () →
      resolveExportValue v (fallbackConds opts) = .absent ∨
        resolveExportValue v (fallbackConds opts) = .leaf "") := by
  have hcondEmpty : ∀ conds, resolveExportValue (.conditional []) conds = .absent := by
    intro conds
    rw [resolveExportValue_conditional]
    simpa [resolvedEntries] using condLoop_nil_entries conds
  have hlistEmpty : ∀ conds, resolveExportValue (.list []) conds = .absent := by
    intro conds
    rw [resolveExportValue_list]
    simp [resolveList]
  refine ⟨hcondEmpty, hlistEmpty, ?_, ?_, ?_, ?_, mkExportTarget_error_fallback⟩
  · intro xs ys conds
    rw [resolveExportValue_list, resolveExportValue_list]
    exact resolveList_skip_absent _ xs ys conds false (hcondEmpty conds)
  · intro xs ys conds
    rw [resolveExportValue_list, resolveExportValue_list]
    exact resolveList_skip_absent _ xs ys conds false (hlistEmpty conds)
  · intro e₁ e₂ k conds hk
    exact conditional_skip_absent e₁ e₂ k _ conds (hcondEmpty conds) hk
  · intro e₁ e₂ k conds hk
    exact conditional_skip_absent e₁ e₂ k _ conds (hlistEmpty conds) hk

/-- Counterexample for C9 as stated: the tree `{ node: "" }` raises
`InvalidExportTarget` at construction although its root resolution over the
global priority list is the leaf `""`, not `Absent`. -/
theorem claimC9_counterexample :
    mkExportTarget (.conditional [("node", ExportValue.leaf "")]) {} = .error () ∧
    resolveExportValue (.conditional [("node", ExportValue.leaf "")])
        (fallbackConds {}) ≠ .absent := by
  constructor
  · simp [mkExportTarget, normalizeConditions, normalizeAux, DEFAULT_CONDITION_PRIORITY,
      resolveFor, resolveExportValue_conditional, resolvedEntries, condLoop, List.lookup,
      resolveExportValue_leaf, jsFalsyStr, jsCoalesce]
  · simp [fallbackConds, normalizeConditions, normalizeAux, DEFAULT_CONDITION_PRIORITY,
      resolveExportValue_conditional, resolvedEntries, condLoop, List.lookup,
      resolveExportValue_leaf]

/-- Witness for C9: an entry binding `browser` to an empty object inside a
larger condition object falls through to `node`, and the error implication
is instantiated at the empty object, whose construction fails with root
resolution `absent`. -/
theorem claimC9_witness :
    resolveExportValue
        (.conditional ([] ++ ("browser", ExportValue.conditional []) ::
          [("node", ExportValue.leaf "x")])) ["browser", "node"] =
      resolveExportValue (.conditional ([] ++ [("node", ExportValue.leaf "x")]))
        ["browser", "node"] ∧
    (resolveExportValue (.conditional []) (fallbackConds {}) = .absent ∨
      resolveExportValue (.conditional []) (fallbackConds {}) = .leaf "") := by
  constructor
  · exact claimC9.2.2.2.2.1 [] [("node", ExportValue.leaf "x")] "browser"
      ["browser", "node"] (by simp [List.lookup])
  · exact claimC9.2.2.2.2.2.2 (.conditional []) {}
      (by simp [mkExportTarget, normalizeConditions, normalizeAux, DEFAULT_CONDITION_PRIORITY,
        resolveFor, resolveExportValue_conditional, resolvedEntries, condLoop_nil_entries,
        jsFalsyStr, jsCoalesce])


/-- Claim C3 (amended): construction throws `InvalidExportTarget` exactly when
the four precomputed standard fields are all JavaScript-falsy (absent or the
empty string) and the last-resort resolution over the stored global priority
list is `Absent` or a leaf holding the empty string; when that last-resort
resolution is `Blocked` construction succeeds with an absent `default` field;
and the empty object throws. -/
theorem claimC3 (v : ExportValue) (opts : ExportTargetOptions) :
    (mkExportTarget v opts = .error () ↔
      (standardFieldsFalsy v opts = true ∧
        (resolveExportValue v (fallbackConds opts) = .absent ∨
          resolveExportValue v (fallbackConds opts) = .leaf ""))) ∧
    (standardFieldsFalsy v opts = true →
      resolveExportValue v (fallbackConds opts) = .blocked →
      mkExportTarget v opts ≠ .error () ∧
        ∀ t, mkExportTarget v opts = .ok t → t.default = none) ∧
    mkExportTarget (.conditional []) {} = .error () := by
  have hiff : mkExportTarget v opts = .error () ↔
      (standardFieldsFalsy v opts = true ∧
        (resolveExportValue v (fallbackConds opts) = .absent ∨
          resolveExportValue v (fallbackConds opts) = .leaf "")) := by
    constructor
    · intro h
      have hfb := mkExportTarget_error_fallback v opts h
      refine ⟨?_, hfb⟩
      simp only [mkExportTarget] at h
      split at h
      · rename_i hcond
        simpa only [standardFieldsFalsy] using hcond
      · exact absurd h (by simp)
    · rintro ⟨hfour, hor⟩
      have hfour' : _ = true := hfour
      simp only [standardFieldsFalsy] at hfour'
      simp only [mkExportTarget, hfour', if_true]
      rcases hor with ha | ha <;>
        simp [resolveFor, fallbackConds, ha, jsFalsyStr] at *
  refine ⟨hiff, ?_, ?_⟩
  · intro hfour hb
    constructor
    · intro h
      rcases (hiff.mp h).2 with ha | ha <;> rw [hb] at ha <;> exact Res.noConfusion ha
    · intro t ht
      have hfour' : _ = true := hfour
      simp only [standardFieldsFalsy] at hfour'
      simp only [fallbackConds] at hb
      have hrf : resolveFor v
          (normalizeConditions (opts.conditionPriority.getD DEFAULT_CONDITION_PRIORITY)) =
          { target := none, blocked := true } := by
        simp [resolveFor, hb]
      simp only [mkExportTarget, hfour', if_true, hrf] at ht
      simp only [jsFalsyStr, Bool.not_true, Bool.and_false, Bool.false_eq_true,
        if_false, Except.ok.injEq] at ht
      subst ht
      rfl
  · simp [mkExportTarget, normalizeConditions, normalizeAux, DEFAULT_CONDITION_PRIORITY,
      resolveFor, resolveExportValue_conditional, resolvedEntries, condLoop_nil_entries,
      jsFalsyStr, jsCoalesce]

/-- Counterexample for C3 as stated: for the export value `""` (a leaf holding
the empty string) construction throws, although the four precomputed fields
are not absent (each is the empty string) and the last-resort resolution is a
leaf, not `Absent`. -/
theorem claimC3_counterexample :
    mkExportTarget (.leaf "") {} = .error () ∧
    resolveExportValue (.leaf "") (fallbackConds {}) = .leaf "" ∧
    Res.leaf "" ≠ Res.absent := by
  refine ⟨?_, ?_, by simp⟩
  · simp [mkExportTarget, normalizeConditions, normalizeAux, DEFAULT_CONDITION_PRIORITY,
      resolveFor, resolveExportValue_leaf, jsFalsyStr, jsCoalesce]
  · simp [fallbackConds, resolveExportValue_leaf]

/-- Witness for C3: for the value `{ node: null }` all standard fields are
falsy and the last-resort resolution is blocked, so construction succeeds
(no error). -/
theorem claimC3_witness :
    mkExportTarget (.conditional [("node", ExportValue.blocked)]) {} ≠ .error () := by
  refine ((claimC3 (.conditional [("node", ExportValue.blocked)]) {}).2.1 ?_ ?_).1
  · simp [standardFieldsFalsy, normalizeConditions, normalizeAux, DEFAULT_CONDITION_PRIORITY,
      resolveFor, resolveExportValue_conditional, resolvedEntries, condLoop, List.lookup,
      resolveExportValue_blocked, jsFalsyStr, jsCoalesce]
  · simp [fallbackConds, normalizeConditions, normalizeAux, DEFAULT_CONDITION_PRIORITY,
      resolveExportValue_conditional, resolvedEntries, condLoop, List.lookup,
      resolveExportValue_blocked]

/-- Unfolding of `mkExportTarget` in terms of already-evaluated normalized
condition sets and resolution results (used to evaluate the constructor on
concrete inputs in stages). -/
theorem mkExportTarget_eq_of (v : ExportValue) (opts : ExportTargetOptions)
    (cp sD sI sR sT : List String) (rD rI rR rT rF : ResolveResult)
    (hcp : normalizeConditions (opts.conditionPriority.getD DEFAULT_CONDITION_PRIORITY) = cp)
    (hsD : normalizeConditions (opts.conditionSetDefault.getD ("default" :: cp)) = sD)
    (hsI : normalizeConditions (opts.conditionSetImport.getD ("import" :: cp)) = sI)
    (hsR : normalizeConditions (opts.conditionSetRequire.getD ("require" :: cp)) = sR)
    (hsT : normalizeConditions (opts.conditionSetTypes.getD ("types" :: cp)) = sT)
    (hrD : resolveFor v sD = rD) (hrI : resolveFor v sI = rI)
    (hrR : resolveFor v sR = rR) (hrT : resolveFor v sT = rT)
    (hrF : resolveFor v cp = rF) :
    mkExportTarget v opts =
      if jsFalsyStr (jsCoalesce rD.target (jsCoalesce rI.target (jsCoalesce rR.target rT.target))) &&
          jsFalsyStr rI.target && jsFalsyStr rR.target && jsFalsyStr rT.target then
        if jsFalsyStr rF.target && !rF.blocked then .error ()
        else .ok { default := rF.target, «import» := rI.target, require := rR.target,
                   types := rT.target, target := v, conditionPriority := cp }
      else
        .ok { default := jsCoalesce rD.target (jsCoalesce rI.target (jsCoalesce rR.target rT.target)),
              «import» := rI.target, require := rR.target, types := rT.target,
              target := v, conditionPriority := cp } := by
  subst hcp
  subst hsD
  subst hsI
  subst hsR
  subst hsT
  subst hrD
  subst hrI
  subst hrR
  subst hrT
  subst hrF
  rfl

/-- Unfolding of `ExportTarget.resolve` in terms of an already-evaluated
normalized condition list and resolution result. -/
theorem ExportTarget.resolve_eq_of (t : ExportTarget) (conds nc : List String)
    (r : ResolveResult) (hnc : normalizeConditions conds = nc)
    (hr : resolveFor t.target nc = r) :
    t.resolve conds = if r.blocked then none else r.target := by
  subst hnc
  subst hr
  rfl

theorem resolveFor_of_leaf (v : ExportValue) (conds : List String) (s : String)
    (h : resolveExportValue v conds = .leaf s) :
    resolveFor v conds = { target := some s, blocked := false } := by
  unfold resolveFor
  rw [h]

theorem resolveFor_of_blocked (v : ExportValue) (conds : List String)
    (h : resolveExportValue v conds = .blocked) :
    resolveFor v conds = { target := none, blocked := true } := by
  unfold resolveFor
  rw [h]

theorem resolveFor_of_absent (v : ExportValue) (conds : List String)
    (h : resolveExportValue v conds = .absent) :
    resolveFor v conds = { target := none, blocked := false } := by
  unfold resolveFor
  rw [h]

theorem normSets_default :
    normalizeConditions ((({} : ExportTargetOptions).conditionPriority).getD DEFAULT_CONDITION_PRIORITY) =
      ["node", "browser", "import", "require", "types", "default"] ∧
    normalizeConditions ("default" :: ["node", "browser", "import", "require", "types", "default"]) =
      ["default", "node", "browser", "import", "require", "types"] ∧
    normalizeConditions ("import" :: ["node", "browser", "import", "require", "types", "default"]) =
      ["import", "node", "browser", "require", "types", "default"] ∧
    normalizeConditions ("require" :: ["node", "browser", "import", "require", "types", "default"]) =
      ["require", "node", "browser", "import", "types", "default"] ∧
    normalizeConditions ("types" :: ["node", "browser", "import", "require", "types", "default"]) =
      ["types", "node", "browser", "import", "require", "default"] := by
  refine ⟨?_, ?_, ?_, ?_, ?_⟩ <;>
    simp [normalizeConditions, normalizeAux, DEFAULT_CONDITION_PRIORITY]

/-- Claim C7: for `{ default: null, import: "./dist/index.mjs" }` with default
options, construction succeeds with `.default` (and the other standard
fields) equal to `./dist/index.mjs`, while `.resolve(["default"])` returns no
result because the `default` condition alone is blocked. -/
theorem claimC7 :
    mkExportTarget
        (.conditional [("default", ExportValue.blocked),
          ("import", ExportValue.leaf "./dist/index.mjs")]) {} =
      .ok { default := some "./dist/index.mjs", «import» := some "./dist/index.mjs",
            require := some "./dist/index.mjs", types := some "./dist/index.mjs",
            target := .conditional [("default", ExportValue.blocked),
              ("import", ExportValue.leaf "./dist/index.mjs")],
            conditionPriority := ["node", "browser", "import", "require", "types", "default"] } ∧
    ExportTarget.resolve
        { default := some "./dist/index.mjs", «import» := some "./dist/index.mjs",
          require := some "./dist/index.mjs", types := some "./dist/index.mjs",
          target := .conditional [("default", ExportValue.blocked),
            ("import", ExportValue.leaf "./dist/index.mjs")],
          conditionPriority := ["node", "browser", "import", "require", "types", "default"] }
        ["default"] = none := by
  have hD : resolveExportValue
      (.conditional [("default", ExportValue.blocked), ("import", ExportValue.leaf "./dist/index.mjs")])
      ["default", "node", "browser", "import", "require", "types"] = .blocked := by
    simp [resolveExportValue_conditional, resolvedEntries, condLoop, List.lookup,
      resolveExportValue_leaf, resolveExportValue_blocked]
  have hI : resolveExportValue
      (.conditional [("default", ExportValue.blocked), ("import", ExportValue.leaf "./dist/index.mjs")])
      ["import", "node", "browser", "require", "types", "default"] = .leaf "./dist/index.mjs" := by
    simp [resolveExportValue_conditional, resolvedEntries, condLoop, List.lookup,
      resolveExportValue_leaf, resolveExportValue_blocked]
  have hR : resolveExportValue
      (.conditional [("default", ExportValue.blocked), ("import", ExportValue.leaf "./dist/index.mjs")])
      ["require", "node", "browser", "import", "types", "default"] = .leaf "./dist/index.mjs" := by
    simp [resolveExportValue_conditional, resolvedEntries, condLoop, List.lookup,
      resolveExportValue_leaf, resolveExportValue_blocked]
  have hT : resolveExportValue
      (.conditional [("default", ExportValue.blocked), ("import", ExportValue.leaf "./dist/index.mjs")])
      ["types", "node", "browser", "import", "require", "default"] = .leaf "./dist/index.mjs" := by
    simp [resolveExportValue_conditional, resolvedEntries, condLoop, List.lookup,
      resolveExportValue_leaf, resolveExportValue_blocked]
  have hF : resolveExportValue
      (.conditional [("default", ExportValue.blocked), ("import", ExportValue.leaf "./dist/index.mjs")])
      ["node", "browser", "import", "require", "types", "default"] = .leaf "./dist/index.mjs" := by
    simp [resolveExportValue_conditional, resolvedEntries, condLoop, List.lookup,
      resolveExportValue_leaf, resolveExportValue_blocked]
  constructor
  · rw [mkExportTarget_eq_of _ _ _ _ _ _ _ _ _ _ _ _
      normSets_default.1 normSets_default.2.1 normSets_default.2.2.1
      normSets_default.2.2.2.1 normSets_default.2.2.2.2
      (resolveFor_of_blocked _ _ hD) (resolveFor_of_leaf _ _ _ hI)
      (resolveFor_of_leaf _ _ _ hR) (resolveFor_of_leaf _ _ _ hT)
      (resolveFor_of_leaf _ _ _ hF)]
    simp [jsFalsyStr, jsCoalesce]
  · have hres : resolveExportValue
        (.conditional [("default", ExportValue.blocked), ("import", ExportValue.leaf "./dist/index.mjs")])
        ["default"] = .blocked := by
      simp [resolveExportValue_conditional, resolvedEntries, condLoop, List.lookup,
        resolveExportValue_blocked]
    rw [ExportTarget.resolve_eq_of _ ["default"] ["default"] { target := none, blocked := true }
      (by simp [normalizeConditions, normalizeAux]) (resolveFor_of_blocked _ _ hres)]
    simp

/-- Claim C10: resolution and construction are pure — resolving the same
value/condition-list pair always yields the same result, and two
constructions from the same value and options agree field for field. -/
theorem claimC10 (v : ExportValue) (conds : List String) (opts : ExportTargetOptions)
    (r₁ r₂ : Res) (t₁ t₂ : ExportTarget)
    (hr₁ : r₁ = resolveExportValue v conds) (hr₂ : r₂ = resolveExportValue v conds)
    (h₁ : mkExportTarget v opts = .ok t₁) (h₂ : mkExportTarget v opts = .ok t₂) :
    r₁ = r₂ ∧ t₁.default = t₂.default ∧ t₁.«import» = t₂.«import» ∧
      t₁.require = t₂.require ∧ t₁.types = t₂.types := by
  subst hr₁
  subst hr₂
  have h := h₁.symm.trans h₂
  simp only [Except.ok.injEq] at h
  subst h
  exact ⟨rfl, rfl, rfl, rfl, rfl⟩

/-- Witness for C10 at the leaf `"a"` with default options. -/
theorem claimC10_witness :
    Res.leaf "a" = Res.leaf "a" ∧
    (some "a" : Option String) = some "a" ∧
    (some "a" : Option String) = some "a" ∧
    (some "a" : Option String) = some "a" ∧
    (some "a" : Option String) = some "a" := by
  have hmk : mkExportTarget (.leaf "a") {} =
      .ok { default := some "a", «import» := some "a", require := some "a",
            types := some "a", target := .leaf "a",
            conditionPriority := ["node", "browser", "import", "require", "types", "default"] } := by
    rw [mkExportTarget_eq_of _ _ _ _ _ _ _ _ _ _ _ _
      normSets_default.1 normSets_default.2.1 normSets_default.2.2.1
      normSets_default.2.2.2.1 normSets_default.2.2.2.2
      (resolveFor_of_leaf _ _ _ (resolveExportValue_leaf "a" _))
      (resolveFor_of_leaf _ _ _ (resolveExportValue_leaf "a" _))
      (resolveFor_of_leaf _ _ _ (resolveExportValue_leaf "a" _))
      (resolveFor_of_leaf _ _ _ (resolveExportValue_leaf "a" _))
      (resolveFor_of_leaf _ _ _ (resolveExportValue_leaf "a" _))]
    simp [jsFalsyStr, jsCoalesce]
  exact claimC10 (.leaf "a") ["x"] {} (Res.leaf "a") (Res.leaf "a") _ _
    (by rw [resolveExportValue_leaf]) (by rw [resolveExportValue_leaf]) hmk hmk

theorem mem_specDedupKeepFirst (x : String) (l : List String) :
    x ∈ specDedupKeepFirst l ↔ x ∈ l := by
  induction l using specDedupKeepFirst.induct with
  | case1 => simp [specDedupKeepFirst]
  | case2 c rest ih =>
    rw [specDedupKeepFirst]
    by_cases hx : x = c
    · simp [hx]
    · simp only [List.mem_cons, hx, false_or, ih, List.mem_filter]
      simp [hx]

theorem normalizeAux_eq_spec (l : List String) :
    ∀ seen, normalizeAux l seen = specDedupKeepFirst (l.filter fun x => decide (x ∉ seen)) := by
  induction l with
  | nil => intro seen; simp [normalizeAux, specDedupKeepFirst]
  | cons c rest ih =>
    intro seen
    by_cases hc : c ∈ seen
    · rw [normalizeAux, if_pos hc]
      have hdec : (decide (c ∉ seen)) = false := by simp [hc]
      rw [List.filter_cons, hdec]
      simp only [Bool.false_eq_true, if_false]
      exact ih seen
    · rw [normalizeAux, if_neg hc]
      have hdec : (decide (c ∉ seen)) = true := by simp [hc]
      rw [List.filter_cons, hdec]
      simp only [if_true]
      rw [specDedupKeepFirst, ih (c :: seen)]
      congr 1
      rw [List.filter_filter]
      congr 1
      apply List.filter_congr
      intro x _
      by_cases h1 : x = c <;> by_cases h2 : x ∈ seen <;> simp [h1, h2]

theorem normalizeConditions_eq_spec (conds : List String) :
    normalizeConditions conds = specNormalize conds := by
  unfold normalizeConditions specNormalize
  have h1 : normalizeAux conds [] = specDedupKeepFirst conds := by
    rw [normalizeAux_eq_spec conds []]
    congr 1
    simp
  rw [h1]
  by_cases hd : "default" ∈ conds
  · rw [if_pos hd, if_pos ((mem_specDedupKeepFirst _ _).mpr hd)]
  · rw [if_neg hd, if_neg fun h => hd ((mem_specDedupKeepFirst _ _).mp h)]

theorem mkExportTarget_ok_target (v : ExportValue) (opts : ExportTargetOptions)
    (t : ExportTarget) (h : mkExportTarget v opts = .ok t) : t.target = v := by
  simp only [mkExportTarget] at h
  split at h
  · split at h
    · exact absurd h (by simp)
    · simp only [Except.ok.injEq] at h
      subst h
      rfl
  · simp only [Except.ok.injEq] at h
    subst h
    rfl

/-- Claim C8: the public `resolve` first normalizes the caller's condition
list — removing duplicates keeping first occurrences and appending `default`
when missing — then runs the full algorithm against the original stored tree,
returning the path for a leaf and no result for both `absent` and `blocked`. -/
theorem claimC8 (v : ExportValue) (opts : ExportTargetOptions) (t : ExportTarget)
    (h : mkExportTarget v opts = .ok t) (conds : List String) :
    t.resolve conds =
      (match resolveExportValue v (normalizeConditions conds) with
       | .leaf s => some s
       | .blocked => none
       | .absent => none) ∧
    normalizeConditions conds = specNormalize conds := by
  have ht := mkExportTarget_ok_target v opts t h
  constructor
  · cases hr : resolveExportValue v (normalizeConditions conds) with
    | leaf s =>
      rw [ExportTarget.resolve_eq_of t conds (normalizeConditions conds)
        { target := some s, blocked := false } rfl
        (by rw [ht]; exact resolveFor_of_leaf _ _ _ hr)]
      simp
    | blocked =>
      rw [ExportTarget.resolve_eq_of t conds (normalizeConditions conds)
        { target := none, blocked := true } rfl
        (by rw [ht]; exact resolveFor_of_blocked _ _ hr)]
      simp
    | absent =>
      rw [ExportTarget.resolve_eq_of t conds (normalizeConditions conds)
        { target := none, blocked := false } rfl
        (by rw [ht]; exact resolveFor_of_absent _ _ hr)]
      simp
  · exact normalizeConditions_eq_spec conds

theorem mkExportTarget_leafA :
    mkExportTarget (.leaf "a") {} =
      .ok { default := some "a", «import» := some "a", require := some "a",
            types := some "a", target := .leaf "a",
            conditionPriority := ["node", "browser", "import", "require", "types", "default"] } := by
  rw [mkExportTarget_eq_of _ _ _ _ _ _ _ _ _ _ _ _
    normSets_default.1 normSets_default.2.1 normSets_default.2.2.1
    normSets_default.2.2.2.1 normSets_default.2.2.2.2
    (resolveFor_of_leaf _ _ _ (resolveExportValue_leaf "a" _))
    (resolveFor_of_leaf _ _ _ (resolveExportValue_leaf "a" _))
    (resolveFor_of_leaf _ _ _ (resolveExportValue_leaf "a" _))
    (resolveFor_of_leaf _ _ _ (resolveExportValue_leaf "a" _))
    (resolveFor_of_leaf _ _ _ (resolveExportValue_leaf "a" _))]
  simp [jsFalsyStr, jsCoalesce]

/-- Witness for C8 at the leaf `"a"` with the duplicated condition list
`["import", "import"]`. -/
theorem claimC8_witness :
    ExportTarget.resolve
        { default := some "a", «import» := some "a", require := some "a",
          types := some "a", target := .leaf "a",
          conditionPriority := ["node", "browser", "import", "require", "types", "default"] }
        ["import", "import"] = some "a" ∧
    normalizeConditions ["import", "import"] = specNormalize ["import", "import"] := by
  have h := claimC8 (.leaf "a") {} _ mkExportTarget_leafA ["import", "import"]
  refine ⟨?_, h.2⟩
  have h1 := h.1
  rw [resolveExportValue_leaf] at h1
  exact h1

theorem get?_nil_str (i : Nat) : ([] : List String).get? i = none := by
  cases i <;> rfl

theorem rds_nil_caps : ∀ (l : List Char) (i : Nat), replaceDoubleStars l [] i = (l, i)
  | [], _ => rfl
  | [_], _ => rfl
  | c :: c2 :: rest, i => by
    rw [replaceDoubleStars]
    by_cases h : c = '*' ∧ c2 = '*'
    · rw [if_pos h, get?_nil_str]
      simp only [rds_nil_caps rest i]
      rw [h.1, h.2]
    · rw [if_neg h]
      simp only [rds_nil_caps (c2 :: rest) i]

theorem rss_nil_caps : ∀ (l : List Char) (i : Nat), replaceSingleStars l [] i = (l, i)
  | [], _ => rfl
  | c :: rest, i => by
    rw [replaceSingleStars]
    by_cases h : c = '*'
    · rw [if_pos h, get?_nil_str]
      simp only [rss_nil_caps rest i]
      rw [h]
    · rw [if_neg h]
      simp only [rss_nil_caps rest i]

theorem rds_starFree_append : ∀ (l r : List Char) (caps : List String) (i : Nat),
    '*' ∉ l →
    replaceDoubleStars (l ++ r) caps i =
      (l ++ (replaceDoubleStars r caps i).1, (replaceDoubleStars r caps i).2)
  | [], r, caps, i, _ => by simp
  | c :: tl, r, caps, i, hl => by
    have hc : c ≠ '*' := fun h => hl (h ▸ List.mem_cons_self c tl)
    have htl : '*' ∉ tl := fun h => hl (List.mem_cons_of_mem c h)
    rw [List.cons_append]
    cases hta : tl ++ r with
    | nil =>
      obtain ⟨h1, h2⟩ := List.append_eq_nil.mp hta
      subst h1
      subst h2
      simp [replaceDoubleStars]
    | cons c2 rest2 =>
      rw [replaceDoubleStars]
      rw [if_neg fun h => hc h.1]
      rw [← hta, rds_starFree_append tl r caps i htl]
      simp

theorem rds_starFree (l : List Char) (caps : List String) (i : Nat) (hl : '*' ∉ l) :
    replaceDoubleStars l caps i = (l, i) := by
  have h := rds_starFree_append l [] caps i hl
  simpa [replaceDoubleStars] using h

theorem rss_starFree_append : ∀ (l r : List Char) (caps : List String) (i : Nat),
    '*' ∉ l →
    replaceSingleStars (l ++ r) caps i =
      (l ++ (replaceSingleStars r caps i).1, (replaceSingleStars r caps i).2)
  | [], r, caps, i, _ => by simp
  | c :: tl, r, caps, i, hl => by
    have hc : c ≠ '*' := fun h => hl (h ▸ List.mem_cons_self c tl)
    have htl : '*' ∉ tl := fun h => hl (List.mem_cons_of_mem c h)
    rw [List.cons_append, replaceSingleStars, if_neg hc,
      rss_starFree_append tl r caps i htl]
    simp

theorem rss_starFree (l : List Char) (caps : List String) (i : Nat) (hl : '*' ∉ l) :
    replaceSingleStars l caps i = (l, i) := by
  have h := rss_starFree_append l [] caps i hl
  simpa [replaceSingleStars] using h

theorem substituteExportValue_leaf (s : String) (caps : List String) :
    substituteExportValue (.leaf s) caps = .leaf (replaceWildcards s caps) := by
  rw [substituteExportValue]

theorem substituteExportValue_blocked (caps : List String) :
    substituteExportValue .blocked caps = .blocked := by
  rw [substituteExportValue]

theorem substituteExportValue_list (items : List ExportValue) (caps : List String) :
    substituteExportValue (.list items) caps =
      .list (items.map fun e => substituteExportValue e caps) := by
  rw [substituteExportValue]
  congr 1
  exact List.attach_map_val items fun e => substituteExportValue e caps

theorem substituteExportValue_conditional (entries : List (String × ExportValue))
    (caps : List String) :
    substituteExportValue (.conditional entries) caps =
      .conditional (entries.map fun q => (q.1, substituteExportValue q.2 caps)) := by
  rw [substituteExportValue]
  congr 1
  exact List.attach_map_val entries fun q => (q.1, substituteExportValue q.2 caps)

theorem mk_data (l : List Char) : (String.mk l).data = l := rfl

theorem data_mk (s : String) : String.mk s.data = s := by
  obtain ⟨l⟩ := s
  rfl


/-- Claim C4 (amended): `_replaceWildcards` substitutes in two passes sharing
one capture counter that restarts per leaf — first every `**` occurrence
(left to right) consumes the next unused capture, then every remaining `*`
(left to right) consumes captures where the first pass left off — so in a leaf
with a `*` before a `**` the `**` receives the earlier capture; markers in
excess of the captures are left literally and no error is raised. -/
theorem claimC4 (a b c : List Char) (x y : String)
    (ha : '*' ∉ a) (hb : '*' ∉ b) (hc : '*' ∉ c)
    (hx : '*' ∉ x.data) (hbne : b ≠ []) :
    replaceWildcards (String.mk (a ++ ('*' :: (b ++ ('*' :: '*' :: c))))) [x, y] =
      String.mk (a ++ (y.data ++ (b ++ (x.data ++ c)))) ∧
    (∀ s, replaceWildcards s [] = s) ∧
    (∀ (s₁ s₂ : String) (caps : List String),
      substituteExportValue (.list [.leaf s₁, .leaf s₂]) caps =
        .list [.leaf (replaceWildcards s₁ caps), .leaf (replaceWildcards s₂ caps)]) := by
  refine ⟨?_, ?_, ?_⟩
  · obtain ⟨b0, b', rfl⟩ : ∃ b0 b', b = b0 :: b' := by
      cases b with
      | nil => exact absurd rfl hbne
      | cons b0 b' => exact ⟨b0, b', rfl⟩
    have hb0 : b0 ≠ '*' := fun h => hb (h ▸ List.mem_cons_self b0 b')
    have h1 : replaceDoubleStars (a ++ ('*' :: (b0 :: b' ++ ('*' :: '*' :: c)))) [x, y] 0 =
        (a ++ ('*' :: (b0 :: b' ++ (x.data ++ c))), 1) := by
      rw [rds_starFree_append a _ _ _ ha]
      rw [show ('*' :: (b0 :: b' ++ ('*' :: '*' :: c))) =
        '*' :: b0 :: (b' ++ ('*' :: '*' :: c)) by simp]
      rw [replaceDoubleStars, if_neg fun h => hb0 h.2]
      rw [show (b0 :: (b' ++ ('*' :: '*' :: c))) = (b0 :: b') ++ ('*' :: '*' :: c) by simp]
      rw [rds_starFree_append (b0 :: b') _ _ _ hb]
      rw [replaceDoubleStars, if_pos ⟨rfl, rfl⟩]
      have hrds := rds_starFree c [x, y] 1 hc
      simp [hrds]
    have hfree : '*' ∉ b0 :: b' ++ (x.data ++ c) := by
      intro h
      rcases by simpa using h with h | h | h | h
      · exact hb0 h.symm
      · exact hb (List.mem_cons_of_mem b0 h)
      · exact hx h
      · exact hc h
    have h2 : replaceSingleStars (a ++ ('*' :: (b0 :: b' ++ (x.data ++ c)))) [x, y] 1 =
        (a ++ (y.data ++ (b0 :: b' ++ (x.data ++ c))), 2) := by
      rw [rss_starFree_append a _ _ _ ha]
      rw [replaceSingleStars, if_pos rfl]
      rw [show ([x, y].get? 1) = some y from rfl]
      rw [rss_starFree _ _ _ hfree]
    rw [replaceWildcards]
    simp only [mk_data, h1]
    simp only [h2]
  · intro s
    rw [replaceWildcards, rds_nil_caps, rss_nil_caps]
  · intro s₁ s₂ caps
    rw [substituteExportValue_list]
    simp [substituteExportValue_leaf]

/-- Counterexample for C4 as stated: in the leaf `a*b**c` with captures
`X`, `Y`, a single left-to-right scan consuming captures in order would give
`aXbYc`, but the code replaces all `**` occurrences first, yielding `aYbXc`. -/
theorem claimC4_counterexample :
    replaceWildcards "a*b**c" ["X", "Y"] ≠ "aXbYc" ∧
    replaceWildcards "a*b**c" ["X", "Y"] = "aYbXc" := by
  decide

/-- Witness for C4 with the leaf `a*b**c` and captures `X`, `Y`. -/
theorem claimC4_witness :
    replaceWildcards (String.mk (['a'] ++ ('*' :: (['b'] ++ ('*' :: '*' :: ['c'])))))
        ["X", "Y"] =
      String.mk (['a'] ++ (("Y" : String).data ++ (['b'] ++ (("X" : String).data ++ ['c'])))) := by
  exact (claimC4 ['a'] ['b'] ['c'] "X" "Y" (by decide) (by decide) (by decide)
    (by decide) (by decide)).1

theorem resolveImport_nil (s : String) (opts : ExportTargetOptions) :
    resolveImport [] s opts = none := rfl

theorem resolveImport_skip (p : String) (v : ExportValue)
    (rest : List (String × ExportValue)) (s : String) (opts : ExportTargetOptions)
    (hm : minimatchModel s p = false) :
    resolveImport ((p, v) :: rest) s opts = resolveImport rest s opts := by
  rw [resolveImport, hm]
  simp

theorem resolveImport_match_noStar (p : String) (v : ExportValue)
    (rest : List (String × ExportValue)) (s : String) (opts : ExportTargetOptions)
    (hm : minimatchModel s p = true) (hs : p.data.contains '*' = false) :
    resolveImport ((p, v) :: rest) s opts = some (mkExportTarget v opts) := by
  rw [resolveImport, hm, hs]
  simp

theorem resolveImport_match_star (p : String) (v : ExportValue)
    (rest : List (String × ExportValue)) (s : String) (opts : ExportTargetOptions)
    (hm : minimatchModel s p = true) (hs : p.data.contains '*' = true) :
    resolveImport ((p, v) :: rest) s opts =
      some (mkExportTarget (substituteExportValue v (extractCaptures p s)) opts) := by
  rw [resolveImport, hm, hs]
  simp

theorem minimatch_literal (p : List Char) (hp : ∀ ch ∈ p, ch ≠ '*' ∧ ch ≠ '?') :
    ∀ s, minimatchChars p s = true ↔ s = p := by
  induction p with
  | nil =>
    intro s
    rw [minimatchChars.eq_1]
    cases s with
    | nil => simp
    | cons d s2 => simp
  | cons c ps ih =>
    intro s
    have hc := hp c (by simp)
    have hps : ∀ ch ∈ ps, ch ≠ '*' ∧ ch ≠ '?' := fun ch h => hp ch (by simp [h])
    rw [minimatchChars.eq_def]
    simp only []
    rw [if_neg hc.1, if_neg hc.2]
    cases s with
    | nil => simp
    | cons d s2 =>
      by_cases hd : d = c
      · subst hd
        simp [ih hps s2]
      · simp [hd]

/-- Claim C5 (amended): a wildcard-free pattern is selected whenever
`minimatch` matches the subpath against it, which for patterns free of all
glob metacharacters (`globSpecialChars`) coincides with exact string
equality — but metacharacters other than `*` (such as `?`) keep their
minimatch meaning even in a wildcard-free pattern; on selection of a
wildcard-free pattern the glob compilation and capture extraction are
skipped and the stored value is resolved directly. -/
theorem claimC5 (p : String) :
    ((∀ ch ∈ p.data, ch ∉ globSpecialChars) →
      ∀ s : String, minimatchModel s p = true ↔ s = p) ∧
    (∀ (v : ExportValue) (rest : List (String × ExportValue)) (s : String)
        (opts : ExportTargetOptions),
      minimatchModel s p = true → p.data.contains '*' = false →
      resolveImport ((p, v) :: rest) s opts = some (mkExportTarget v opts)) := by
  constructor
  · intro hp s
    have hp' : ∀ ch ∈ p.data, ch ≠ '*' ∧ ch ≠ '?' := by
      intro ch h
      have hni := hp ch h
      refine ⟨?_, ?_⟩ <;> rintro rfl <;> simp [globSpecialChars] at hni
    rw [minimatchModel, minimatch_literal p.data hp' s.data]
    constructor
    · intro h
      cases p with
      | mk dp =>
        cases s with
        | mk ds => exact congrArg String.mk h
    · intro h
      rw [h]
  · intro v rest s opts hm hs
    exact resolveImport_match_noStar p v rest s opts hm hs

/-- Counterexample for C5 as stated: the wildcard-free pattern `fo?` is
selected for the subpath `foo` (the minimatch `?` metacharacter matches the
final `o`) although `foo` is not literally equal to `fo?`. -/
theorem claimC5_counterexample :
    resolveImport [("fo?", ExportValue.leaf "./x.js")] "foo" {} =
      some (mkExportTarget (ExportValue.leaf "./x.js") {}) ∧
    ("foo" : String) ≠ "fo?" := by
  constructor
  · have hm : minimatchModel "foo" "fo?" = true := by
      simp [minimatchModel, minimatchChars]
    exact resolveImport_match_noStar "fo?" (ExportValue.leaf "./x.js") [] "foo" {} hm
      (by decide)
  · decide

/-- Witness for C5 at the plain pattern `./utils`, which contains no glob
metacharacter at all. -/
theorem claimC5_witness :
    (minimatchModel "./utils" "./utils" = true ↔ ("./utils" : String) = "./utils") ∧
    resolveImport [("./utils", ExportValue.leaf "./u.js")] "./utils" {} =
      some (mkExportTarget (ExportValue.leaf "./u.js") {}) := by
  have h := claimC5 "./utils"
  refine ⟨h.1 (by decide) "./utils", h.2 (ExportValue.leaf "./u.js") [] "./utils" {}
    ?_ (by decide)⟩
  exact (h.1 (by decide) "./utils").mpr rfl

theorem mkExportTarget_leaf_ne (s : String) (hs : ¬ s = "") :
    mkExportTarget (.leaf s) {} =
      .ok { default := some s, «import» := some s, require := some s,
            types := some s, target := .leaf s,
            conditionPriority := ["node", "browser", "import", "require", "types", "default"] } := by
  rw [mkExportTarget_eq_of _ _ _ _ _ _ _ _ _ _ _ _
    normSets_default.1 normSets_default.2.1 normSets_default.2.2.1
    normSets_default.2.2.2.1 normSets_default.2.2.2.2
    (resolveFor_of_leaf _ _ _ (resolveExportValue_leaf s _))
    (resolveFor_of_leaf _ _ _ (resolveExportValue_leaf s _))
    (resolveFor_of_leaf _ _ _ (resolveExportValue_leaf s _))
    (resolveFor_of_leaf _ _ _ (resolveExportValue_leaf s _))
    (resolveFor_of_leaf _ _ _ (resolveExportValue_leaf s _))]
  simp [jsFalsyStr, jsCoalesce, hs]

/-- Claim C6: `resolveImport` returns the result built from the first pattern
in declaration order that matches — equal to what the singleton table holding
just that pattern would give, with no re-ranking — so reordering a table whose
patterns both match changes which target is returned; and when no pattern
matches the result is the absent `undefined`, never an error. -/
theorem claimC6 (t₁ t₂ : List (String × ExportValue)) (p : String) (v : ExportValue)
    (s : String) (opts : ExportTargetOptions)
    (h1 : ∀ q w, (q, w) ∈ t₁ → minimatchModel s q = false)
    (h2 : minimatchModel s p = true) :
    resolveImport (t₁ ++ (p, v) :: t₂) s opts = resolveImport [(p, v)] s opts ∧
    (∀ (table : List (String × ExportValue)) (s' : String) (opts' : ExportTargetOptions),
      (∀ q w, (q, w) ∈ table → minimatchModel s' q = false) →
      resolveImport table s' opts' = none) ∧
    resolveImport
        [("./*", ExportValue.leaf "./dist/*.js"),
         ("./utils", ExportValue.leaf "./special/utils.js")] "./utils" {} =
      some (mkExportTarget (ExportValue.leaf "./dist/utils.js") {}) ∧
    resolveImport
        [("./utils", ExportValue.leaf "./special/utils.js"),
         ("./*", ExportValue.leaf "./dist/*.js")] "./utils" {} =
      some (mkExportTarget (ExportValue.leaf "./special/utils.js") {}) ∧
    mkExportTarget (ExportValue.leaf "./dist/utils.js") {} ≠
      mkExportTarget (ExportValue.leaf "./special/utils.js") {} := by
  refine ⟨?_, ?_, ?_, ?_, ?_⟩
  · induction t₁ with
    | nil =>
      simp only [List.nil_append]
      by_cases hstar : p.data.contains '*' = true
      · rw [resolveImport_match_star p v t₂ s opts h2 hstar,
          resolveImport_match_star p v [] s opts h2 hstar]
      · rw [resolveImport_match_noStar p v t₂ s opts h2 (by simpa using hstar),
          resolveImport_match_noStar p v [] s opts h2 (by simpa using hstar)]
    | cons q t₁' ih =>
      obtain ⟨qp, qv⟩ := q
      rw [List.cons_append, resolveImport_skip qp qv _ s opts (h1 qp qv (by simp))]
      exact ih fun q w hq => h1 q w (by simp [hq])
  · intro table s' opts' h
    induction table with
    | nil => exact resolveImport_nil s' opts'
    | cons q rest ih =>
      obtain ⟨qp, qv⟩ := q
      rw [resolveImport_skip qp qv rest s' opts' (h qp qv (by simp))]
      exact ih fun q w hq => h q w (by simp [hq])
  · have hm : minimatchModel "./utils" "./*" = true := by
      simp [minimatchModel, minimatchChars]
    have hcap : extractCaptures "./*" "./utils" = ["utils"] := by
      simp [extractCaptures, regexCapture, tryCapture, List.takeWhile]
    rw [resolveImport_match_star "./*" (ExportValue.leaf "./dist/*.js") _ "./utils" {}
      hm (by decide), hcap, substituteExportValue_leaf,
      show replaceWildcards "./dist/*.js" ["utils"] = "./dist/utils.js" from by decide]
  · have hm : minimatchModel "./utils" "./utils" = true := by
      simp [minimatchModel, minimatchChars]
    rw [resolveImport_match_noStar "./utils" (ExportValue.leaf "./special/utils.js") _
      "./utils" {} hm (by decide)]
  · rw [mkExportTarget_leaf_ne "./dist/utils.js" (by decide),
      mkExportTarget_leaf_ne "./special/utils.js" (by decide)]
    simp

/-- Witness for C6: a leading non-matching pattern is skipped and the later
matching pattern decides the result, exactly as the singleton table would. -/
theorem claimC6_witness :
    resolveImport ([("zz", ExportValue.leaf "./q.js")] ++
        ("./utils", ExportValue.leaf "./a.js") :: []) "./utils" {} =
      resolveImport [("./utils", ExportValue.leaf "./a.js")] "./utils" {} := by
  refine (claimC6 [("zz", ExportValue.leaf "./q.js")] [] "./utils"
    (ExportValue.leaf "./a.js") "./utils" {} ?_ ?_).1
  · intro q w hq
    simp only [List.mem_singleton, Prod.mk.injEq] at hq
    rw [hq.1]
    simp [minimatchModel, minimatchChars]
  · simp [minimatchModel, minimatchChars]
